import Mathlib

/-!
# Verification of the German article-to-word extractor

Shallow embedding of `src/app.js`, `src/unnamed/part_000` and
`src/unnamed/part_001` of the `german-article-to-word-extractor`
repository, together with proofs about the extraction pipeline
(tokenize, pair articles with the following word, deduplicate) and the
CSV export.

The JavaScript tokenizer is the regex `/\p{L}[\p{L}\p{Mn}\-']*/gu`
applied with `matchAll`.  The Unicode character classes `\p{L}` and
`\p{Mn}` are environment data, so the embedding is parameterized by two
boolean character predicates `letter` and `mark`; concrete witnesses
instantiate them with the ASCII letter class, on which `\p{L}` agrees.
Case mapping (`String.prototype.toLowerCase`) is embedded as per-character
ASCII lowering, which agrees with the host on all inputs used here.
-/

namespace GermanExtractor

/-- The apostrophe character, one of the two joiner characters of the
word regex. -/
def apos : Char := Char.ofNat 39

section Core

variable (letter mark : Char → Bool)

/-- Continuation class of the word regex: after the leading letter, the
regex greedily consumes letters, nonspacing marks, hyphens and
apostrophes (`[\p{L}\p{Mn}\-']*`). -/
def cont (c : Char) : Bool := letter c || mark c || c = '-' || c = apos

/-- The left-to-right scan performed by `text.matchAll(wordRegex)`:
outside a match (`none` state) it skips characters until a letter starts
a match; inside a match (`some acc` state, `acc` holds the reversed
characters gathered so far) it greedily consumes continuation
characters.  A character that ends a match cannot start one (letters
are continuation characters), so scanning may resume after it. -/
def tokAux : List Char → Option (List Char) → List (List Char)
  | [], none => []
  | [], some acc => [acc.reverse]
  | c :: rest, none =>
      if letter c then tokAux rest (some [c]) else tokAux rest none
  | c :: rest, some acc =>
      if cont letter mark c then tokAux rest (some (c :: acc))
      else acc.reverse :: tokAux rest none

/-- `Array.from(text.matchAll(wordRegex), m => m[0])` on the character
list of `text`. -/
def tokenize (cs : List Char) : List (List Char) := tokAux letter mark cs none

end Core

/-- Per-character lowering: `'A'..'Z'` map to `'a'..'z'`, everything
else is fixed (the embedding of `toLowerCase` on the inputs considered
here). -/
def lowerStr (s : String) : String := ⟨s.data.map Char.toLower⟩

/-- The entry record produced by `extractStructuredWords` in `src/app.js`:
`{ article, noun, display, english }`. -/
structure Entry where
  article : String
  noun : String
  display : String
  english : String
deriving DecidableEq

/-- The fixed determiner set `ARTICLES` of `src/app.js` (18 tokens). -/
def ARTICLES : List String :=
  ["der", "die", "das", "den", "dem", "des",
   "ein", "eine", "einen", "einem", "einer", "eines",
   "kein", "keine", "keinen", "keinem", "keiner", "keines"]

/-- The pairing loop of `extractStructuredWords` (`src/app.js` lines
28–37): at each visited index, lowercase the token; if it is in the
determiner set and a next token exists, emit an article+noun pair and
skip the next token, otherwise emit a bare entry. -/
def pairItems (arts : List String) : List String → List Entry
  | [] => []
  | t :: rest =>
      let w := lowerStr t
      match rest with
      | [] => [⟨"", w, w, ""⟩]
      | t2 :: rest2 =>
          if arts.contains w then
            let next := lowerStr t2
            ⟨w, next, w ++ " " ++ next, ""⟩ :: pairItems arts rest2
          else
            ⟨"", w, w, ""⟩ :: pairItems arts (t2 :: rest2)

/-- The dedup key of `src/app.js` line 43:
`(it.article ? it.article + ' ' : '') + it.noun`. -/
def entryKey (e : Entry) : String :=
  (if e.article = "" then "" else e.article ++ " ") ++ e.noun

/-- The dedup loop of `src/app.js` lines 40–48, with the `seen` set made
explicit. -/
def dedupAux : List Entry → List String → List Entry
  | [], _ => []
  | e :: rest, seen =>
      if seen.contains (entryKey e) then dedupAux rest seen
      else e :: dedupAux rest (entryKey e :: seen)

/-- Deduplicate preserving order, starting from an empty `seen` set. -/
def dedupEntries (l : List Entry) : List Entry := dedupAux l []

/-- The token list of a text: the regex matches, as strings. -/
def tokensOf (letter mark : Char → Bool) (s : String) : List String :=
  (tokenize letter mark s.data).map (fun l => ⟨l⟩)

/-- `extractStructuredWords` of `src/app.js` (lines 24–50), with the
determiner set as a parameter: guard out falsy (empty) text, tokenize,
pair, deduplicate. -/
def extractWith (letter mark : Char → Bool) (arts : List String)
    (text : String) : List Entry :=
  if text = "" then []
  else dedupEntries (pairItems arts (tokensOf letter mark text))

/-- `extractStructuredWords` of `src/app.js` with its fixed `ARTICLES`
set. -/
def extractStructuredWords (letter mark : Char → Bool) (text : String) :
    List Entry :=
  extractWith letter mark ARTICLES text

/-- ASCII letter class: agrees with `\p{L}` on ASCII characters. -/
def asciiLetter (c : Char) : Bool :=
  ('A' ≤ c && c ≤ 'Z') || ('a' ≤ c && c ≤ 'z')

/-- Nonspacing-mark class restricted to ASCII: empty (no ASCII character
is in `\p{Mn}`). -/
def asciiMark (_ : Char) : Bool := false

example :
    extractStructuredWords asciiLetter asciiMark "Der Hund lief." =
      [⟨"der", "hund", "der hund", ""⟩, ⟨"", "lief", "lief", ""⟩] := by decide

example :
    extractStructuredWords asciiLetter asciiMark "Hund hund DER Hund" =
      [⟨"", "hund", "hund", ""⟩, ⟨"der", "hund", "der hund", ""⟩] := by decide

example :
    extractStructuredWords asciiLetter asciiMark "die der" =
      [⟨"die", "der", "die der", ""⟩] := by decide

example :
    tokensOf asciiLetter asciiMark "a-b' c1d" = ["a-b'", "c", "d"] := by decide

/-! ## Tokenizer lemmas -/

section TokenizerLemmas

variable (letter mark : Char → Bool)

theorem letter_imp_cont {c : Char} (h : letter c = true) :
    cont letter mark c = true := by
  simp [cont, h]

theorem not_letter_of_not_cont {c : Char} (h : cont letter mark c = false) :
    letter c = false := by
  simp [cont] at h
  exact h.1.1.1

/-- Inside a match the scanner gathers the greedy run of continuation
characters, then resumes scanning. -/
theorem tokAux_some_eq (cs acc : List Char) :
    tokAux letter mark cs (some acc) =
      (acc.reverse ++ cs.takeWhile (cont letter mark)) ::
        tokenize letter mark (cs.dropWhile (cont letter mark)) := by
  induction cs generalizing acc with
  | nil => simp [tokAux, tokenize]
  | cons c rest ih =>
      by_cases h : cont letter mark c = true
      · simp [tokAux, h, List.takeWhile_cons, List.dropWhile_cons, ih]
      · rw [Bool.not_eq_true] at h
        have hl : letter c = false := not_letter_of_not_cont letter mark h
        simp [tokAux, h, hl, List.takeWhile_cons, List.dropWhile_cons, tokenize]

theorem tokenize_nil : tokenize letter mark [] = [] := rfl

theorem tokenize_cons_skip {c : Char} (rest : List Char)
    (h : letter c = false) :
    tokenize letter mark (c :: rest) = tokenize letter mark rest := by
  simp [tokenize, tokAux, h]

theorem tokenize_cons_letter {c : Char} (rest : List Char)
    (h : letter c = true) :
    tokenize letter mark (c :: rest) =
      (c :: rest.takeWhile (cont letter mark)) ::
        tokenize letter mark (rest.dropWhile (cont letter mark)) := by
  simp [tokenize, tokAux, h, tokAux_some_eq]

theorem length_dropWhile_le' (p : Char → Bool) (l : List Char) :
    (l.dropWhile p).length ≤ l.length := by
  induction l with
  | nil => simp
  | cons a l ih =>
      rw [List.dropWhile_cons]
      by_cases h : p a = true
      · simp only [h, if_true, List.length_cons]
        exact le_trans ih (Nat.le_succ _)
      · simp [h]

theorem takeWhile_eq_nil_of_head (p : Char → Bool) (l : List Char)
    (h : ∀ d, l.head? = some d → p d = false) : l.takeWhile p = [] := by
  cases l with
  | nil => rfl
  | cons a l => simp [List.takeWhile_cons, h a rfl]

theorem dropWhile_eq_self_of_head (p : Char → Bool) (l : List Char)
    (h : ∀ d, l.head? = some d → p d = false) : l.dropWhile p = l := by
  cases l with
  | nil => rfl
  | cons a l => simp [List.dropWhile_cons, h a rfl]

theorem head_dropWhile_not (p : Char → Bool) (l : List Char) :
    ∀ d, (l.dropWhile p).head? = some d → p d = false := by
  induction l with
  | nil => simp
  | cons a l ih =>
      intro d hd
      rw [List.dropWhile_cons] at hd
      by_cases h : p a = true
      · simp [h] at hd; exact ih d hd
      · simp [h] at hd
        rw [Bool.not_eq_true] at h
        rw [← hd]
        exact h

theorem takeWhile_append_all (p : Char → Bool) (l₁ l₂ : List Char)
    (h : ∀ x ∈ l₁, p x = true) :
    (l₁ ++ l₂).takeWhile p = l₁ ++ l₂.takeWhile p := by
  induction l₁ with
  | nil => simp
  | cons a l ih =>
      simp only [List.cons_append, List.takeWhile_cons, h a (by simp)]
      simp [ih fun x hx => h x (by simp [hx])]

theorem dropWhile_append_all (p : Char → Bool) (l₁ l₂ : List Char)
    (h : ∀ x ∈ l₁, p x = true) :
    (l₁ ++ l₂).dropWhile p = l₂.dropWhile p := by
  induction l₁ with
  | nil => simp
  | cons a l ih =>
      simp only [List.cons_append, List.dropWhile_cons, h a (by simp)]
      simp [ih fun x hx => h x (by simp [hx])]

end TokenizerLemmas

/-! ## Maximal-run characterization of tokenization (claim C6) -/

/-- Declarative decomposition of a character list into word runs, read
off the spec's description of tokenization: separator stretches contain
no letter (so they cannot start a word), each run starts with a letter
and continues with continuation characters, each run is maximal (the
character following it, if any, is not a continuation character), and
runs are listed left to right. -/
inductive Runs (letter mark : Char → Bool) :
    List Char → List (List Char) → Prop where
  | nil (sep : List Char) (hsep : ∀ c ∈ sep, letter c = false) :
      Runs letter mark sep []
  | cons (sep : List Char) (c : Char) (body rest : List Char)
      (ts : List (List Char))
      (hsep : ∀ x ∈ sep, letter x = false)
      (hc : letter c = true)
      (hbody : ∀ x ∈ body, cont letter mark x = true)
      (hmax : ∀ d, rest.head? = some d → cont letter mark d = false)
      (hrest : Runs letter mark rest ts) :
      Runs letter mark (sep ++ c :: (body ++ rest)) ((c :: body) :: ts)

theorem runs_skip (letter mark : Char → Bool) {c : Char} {rest : List Char}
    {ts : List (List Char)} (hc : letter c = false)
    (h : Runs letter mark rest ts) : Runs letter mark (c :: rest) ts := by
  cases h with
  | nil _ hsep =>
      refine Runs.nil (c :: rest) ?_
      intro x hx
      rcases List.mem_cons.mp hx with h1 | h2
      · exact h1 ▸ hc
      · exact hsep x h2
  | cons sep c2 body rest2 ts2 hsep hc2 hbody hmax hrest =>
      have h2 := Runs.cons (c :: sep) c2 body rest2 ts2 (by
        intro x hx
        rcases List.mem_cons.mp hx with h1 | h2
        · exact h1 ▸ hc
        · exact hsep x h2) hc2 hbody hmax hrest
      simpa using h2

theorem tokenize_eq_nil (letter mark : Char → Bool) (sep : List Char)
    (h : ∀ c ∈ sep, letter c = false) : tokenize letter mark sep = [] := by
  induction sep with
  | nil => rfl
  | cons c rest ih =>
      rw [tokenize_cons_skip letter mark rest (h c (by simp))]
      exact ih fun x hx => h x (by simp [hx])

theorem tokenize_append_sep (letter mark : Char → Bool) (sep l : List Char)
    (h : ∀ c ∈ sep, letter c = false) :
    tokenize letter mark (sep ++ l) = tokenize letter mark l := by
  induction sep with
  | nil => rfl
  | cons c rest ih =>
      rw [List.cons_append, tokenize_cons_skip letter mark _ (h c (by simp))]
      exact ih fun x hx => h x (by simp [hx])

theorem tokenize_of_runs (letter mark : Char → Bool) {cs : List Char}
    {ts : List (List Char)} (h : Runs letter mark cs ts) :
    tokenize letter mark cs = ts := by
  induction h with
  | nil sep hsep => exact tokenize_eq_nil letter mark sep hsep
  | cons sep c body rest ts hsep hc hbody hmax hrest ih =>
      rw [tokenize_append_sep letter mark sep _ hsep,
        tokenize_cons_letter letter mark _ hc,
        takeWhile_append_all _ body rest hbody,
        dropWhile_append_all _ body rest hbody,
        takeWhile_eq_nil_of_head _ rest hmax,
        dropWhile_eq_self_of_head _ rest hmax]
      simp [ih]

theorem runs_of_tokenize (letter mark : Char → Bool) :
    ∀ cs, Runs letter mark cs (tokenize letter mark cs) := by
  suffices h : ∀ n cs, List.length cs = n →
      Runs letter mark cs (tokenize letter mark cs) by
    exact fun cs => h cs.length cs rfl
  intro n
  induction n using Nat.strong_induction_on with
  | _ n ih =>
      intro cs hn
      cases cs with
      | nil => exact Runs.nil [] (by simp)
      | cons c rest =>
          by_cases hc : letter c = true
          · rw [tokenize_cons_letter letter mark rest hc]
            have hb : ∀ x ∈ rest.takeWhile (cont letter mark),
                cont letter mark x = true :=
              fun x hx => List.mem_takeWhile_imp hx
            have hmax := head_dropWhile_not (cont letter mark) rest
            have hlen : (rest.dropWhile (cont letter mark)).length < n := by
              have := length_dropWhile_le' (cont letter mark) rest
              subst hn
              simp only [List.length_cons]
              omega
            have hrest := ih _ hlen (rest.dropWhile (cont letter mark)) rfl
            have h2 := Runs.cons [] c (rest.takeWhile (cont letter mark))
              (rest.dropWhile (cont letter mark)) _ (by simp) hc hb hmax hrest
            simpa [List.takeWhile_append_dropWhile] using h2
          · rw [Bool.not_eq_true] at hc
            rw [tokenize_cons_skip letter mark rest hc]
            have hlen : rest.length < n := by
              subst hn
              simp
            exact runs_skip letter mark hc (ih _ hlen rest rfl)

/-- **C6**: For every input text, tokenization produces exactly the
maximal runs, found in left-to-right order, that start with a letter
codepoint and continue with zero or more letters, combining marks,
hyphens, or apostrophes, and all other characters act only as
separators and never appear inside a token: a token list is a valid
left-to-right maximal-run decomposition of the text (`Runs`) if and
only if it is the output of the tokenizer. -/
theorem claimC6_tokenize_iff_maximal_runs (letter mark : Char → Bool)
    (text : String) (ts : List (List Char)) :
    Runs letter mark text.data ts ↔ tokenize letter mark text.data = ts := by
  constructor
  · exact tokenize_of_runs letter mark
  · rintro rfl
    exact runs_of_tokenize letter mark text.data

/-! ## Lowercasing lemmas -/

theorem toNat_ofNat_valid {n : Nat} (h : n.isValidChar) :
    (Char.ofNat n).toNat = n := by
  simp [Char.ofNat, h, Char.ofNatAux, Char.toNat, UInt32.toNat,
    BitVec.toNat_ofNatLt]

theorem toLower_def (c : Char) :
    c.toLower =
      if c.toNat ≥ 65 ∧ c.toNat ≤ 90 then Char.ofNat (c.toNat + 32) else c :=
  rfl

theorem toLower_toLower (c : Char) : c.toLower.toLower = c.toLower := by
  by_cases h : c.toNat ≥ 65 ∧ c.toNat ≤ 90
  · rw [toLower_def c, if_pos h, toLower_def]
    have hv : (c.toNat + 32).isValidChar := Or.inl (by omega)
    rw [toNat_ofNat_valid hv, if_neg (by omega)]
  · rw [toLower_def c, if_neg h, toLower_def c, if_neg h]

theorem toLower_space {c : Char} (h : c.toLower = ' ') : c = ' ' := by
  by_cases hr : c.toNat ≥ 65 ∧ c.toNat ≤ 90
  · exfalso
    have h2 := congrArg Char.toNat h
    rw [toLower_def, if_pos hr] at h2
    have hv : (c.toNat + 32).isValidChar := Or.inl (by omega)
    rw [toNat_ofNat_valid hv] at h2
    have hsp : (' ').toNat = 32 := rfl
    omega
  · rw [toLower_def, if_neg hr] at h
    exact h

theorem lowerStr_data (s : String) :
    (lowerStr s).data = s.data.map Char.toLower := rfl

theorem lowerStr_lowerStr (s : String) : lowerStr (lowerStr s) = lowerStr s := by
  apply String.ext
  simp [lowerStr_data, Function.comp, toLower_toLower]

theorem lowerStr_eq_empty_iff (s : String) : lowerStr s = "" ↔ s = "" := by
  constructor
  · intro h
    have h2 := congrArg String.data h
    rw [lowerStr_data] at h2
    apply String.ext
    simpa using h2
  · rintro rfl
    rfl

theorem lowerStr_no_space {s : String} (h : ' ' ∉ s.data) :
    ' ' ∉ (lowerStr s).data := by
  rw [lowerStr_data]
  intro hmem
  rcases List.mem_map.mp hmem with ⟨c, hc, hc2⟩
  exact h (toLower_space hc2 ▸ hc)

/-! ## Token shape -/

theorem runs_token_shape (letter mark : Char → Bool) {cs : List Char}
    {ts : List (List Char)} (h : Runs letter mark cs ts) :
    ∀ t ∈ ts, ∃ c body, t = c :: body ∧ letter c = true ∧
      ∀ x ∈ body, cont letter mark x = true := by
  induction h with
  | nil => simp
  | cons sep c body rest ts hsep hc hbody hmax hrest ih =>
      intro t ht
      rcases List.mem_cons.mp ht with h1 | h2
      · exact ⟨c, body, h1, hc, hbody⟩
      · exact ih t h2

theorem tokenize_token_shape (letter mark : Char → Bool) (cs : List Char) :
    ∀ t ∈ tokenize letter mark cs, ∃ c body, t = c :: body ∧
      letter c = true ∧ ∀ x ∈ body, cont letter mark x = true :=
  runs_token_shape letter mark (runs_of_tokenize letter mark cs)

theorem tokenize_token_chars (letter mark : Char → Bool) (cs : List Char) :
    ∀ t ∈ tokenize letter mark cs, ∀ x ∈ t, cont letter mark x = true := by
  intro t ht x hx
  rcases tokenize_token_shape letter mark cs t ht with ⟨c, body, rfl, hc, hbody⟩
  rcases List.mem_cons.mp hx with h1 | h2
  · exact h1 ▸ letter_imp_cont letter mark hc
  · exact hbody x h2

theorem tokensOf_nonempty (letter mark : Char → Bool) (s : String) :
    ∀ t ∈ tokensOf letter mark s, t ≠ "" := by
  intro t ht
  rcases List.mem_map.mp ht with ⟨l, hl, rfl⟩
  rcases tokenize_token_shape letter mark s.data l hl with ⟨c, body, rfl, _, _⟩
  intro h
  exact absurd (congrArg String.data h) (by simp)

theorem tokensOf_no_space (letter mark : Char → Bool) (s : String)
    (hl : letter ' ' = false) (hm : mark ' ' = false) :
    ∀ t ∈ tokensOf letter mark s, ' ' ∉ t.data := by
  intro t ht hsp
  rcases List.mem_map.mp ht with ⟨l, hmem, rfl⟩
  have h := tokenize_token_chars letter mark s.data l hmem ' ' hsp
  rw [cont, hl, hm] at h
  simp [apos] at h

/-! ## Pairing-scan lemmas -/

theorem pairItems_mem_shape (arts : List String) (ts : List String) :
    ∀ e ∈ pairItems arts ts,
      (e.article = "" ∨ e.article ∈ arts) ∧
        (∃ t ∈ ts, e.noun = lowerStr t) ∧ e.english = "" := by
  induction ts using pairItems.induct arts with
  | case1 => simp [pairItems]
  | case2 t =>
      intro e he
      simp only [pairItems, List.mem_singleton] at he
      subst he
      exact ⟨Or.inl rfl, ⟨t, by simp⟩, rfl⟩
  | case3 t w t2 rest2 hw ih =>
      intro e he
      rw [pairItems] at he
      simp only [hw, if_pos] at he
      rcases List.mem_cons.mp he with h1 | h2
      · subst h1
        refine ⟨Or.inr ?_, ⟨t2, by simp⟩, rfl⟩
        simpa using hw
      · rcases ih e h2 with ⟨ha, ⟨t3, ht3, hn⟩, he2⟩
        exact ⟨ha, ⟨t3, by simp [ht3], hn⟩, he2⟩
  | case4 t w t2 rest2 hw ih =>
      intro e he
      rw [pairItems] at he
      rw [Bool.not_eq_true] at hw
      simp only [hw] at he
      rcases List.mem_cons.mp he with h1 | h2
      · subst h1
        exact ⟨Or.inl rfl, ⟨t, by simp⟩, rfl⟩
      · rcases ih e h2 with ⟨ha, ⟨t3, ht3, hn⟩, he2⟩
        exact ⟨ha, ⟨t3, by simp [List.mem_cons.mp ht3], hn⟩, he2⟩

/-! ## Dedup lemmas -/

theorem dedupAux_subset (l : List Entry) (seen : List String) :
    ∀ e ∈ dedupAux l seen, e ∈ l := by
  induction l generalizing seen with
  | nil => simp [dedupAux]
  | cons a rest ih =>
      intro e he
      rw [dedupAux] at he
      by_cases h : seen.contains (entryKey a) = true
      · simp only [h, if_pos] at he
        exact List.mem_cons_of_mem a (ih seen e he)
      · rw [Bool.not_eq_true] at h
        simp only [h] at he
        rcases List.mem_cons.mp he with h1 | h2
        · exact h1 ▸ List.mem_cons_self a rest
        · exact List.mem_cons_of_mem a (ih _ e h2)

theorem dedupAux_sublist (l : List Entry) (seen : List String) :
    (dedupAux l seen).Sublist l := by
  induction l generalizing seen with
  | nil => simp [dedupAux]
  | cons a rest ih =>
      rw [dedupAux]
      by_cases h : seen.contains (entryKey a) = true
      · simp only [h, if_pos]
        exact (ih seen).cons a
      · rw [Bool.not_eq_true] at h
        simp only [h]
        exact (ih _).cons₂ a

theorem dedupAux_key_not_seen (l : List Entry) (seen : List String) :
    ∀ e ∈ dedupAux l seen, seen.contains (entryKey e) = false := by
  induction l generalizing seen with
  | nil => simp [dedupAux]
  | cons a rest ih =>
      intro e he
      rw [dedupAux] at he
      by_cases h : seen.contains (entryKey a) = true
      · simp only [h, if_pos] at he
        exact ih seen e he
      · rw [Bool.not_eq_true] at h
        simp only [h] at he
        rcases List.mem_cons.mp he with h1 | h2
        · exact h1 ▸ h
        · have h3 := ih _ e h2
          simp only [List.contains_cons] at h3
          exact (Bool.or_eq_false_iff.mp h3).2

theorem dedupAux_pairwise_keys (l : List Entry) (seen : List String) :
    (dedupAux l seen).Pairwise (fun a b => entryKey a ≠ entryKey b) := by
  induction l generalizing seen with
  | nil => exact List.Pairwise.nil
  | cons a rest ih =>
      rw [dedupAux]
      by_cases h : seen.contains (entryKey a) = true
      · simp only [h, if_pos]
        exact ih seen
      · rw [Bool.not_eq_true] at h
        simp only [h]
        refine List.Pairwise.cons ?_ (ih _)
        intro e he
        have h2 := dedupAux_key_not_seen rest (entryKey a :: seen) e he
        simp only [List.contains_cons, Bool.or_eq_false_iff] at h2
        intro hk
        have := h2.1
        simp [hk] at this

theorem dedupAux_first_wins (l : List Entry) (seen : List String) :
    ∀ e ∈ dedupAux l seen, ∃ l₁ l₂, l = l₁ ++ e :: l₂ ∧
      ∀ x ∈ l₁, entryKey x ≠ entryKey e := by
  induction l generalizing seen with
  | nil => simp [dedupAux]
  | cons a rest ih =>
      intro e he
      rw [dedupAux] at he
      by_cases h : seen.contains (entryKey a) = true
      · simp only [h, if_pos] at he
        rcases ih seen e he with ⟨l₁, l₂, rfl, hpre⟩
        have hnot := dedupAux_key_not_seen _ seen e he
        refine ⟨a :: l₁, l₂, rfl, ?_⟩
        intro x hx
        rcases List.mem_cons.mp hx with h1 | h2
        · subst h1
          intro hk
          rw [hk] at h
          rw [hnot] at h
          exact Bool.false_ne_true h
        · exact hpre x h2
      · rw [Bool.not_eq_true] at h
        simp only [h] at he
        rcases List.mem_cons.mp he with h1 | h2
        · exact ⟨[], rest, by simp [h1], by simp⟩
        · rcases ih _ e h2 with ⟨l₁, l₂, rfl, hpre⟩
          have hnot := dedupAux_key_not_seen _ _ e h2
          simp only [List.contains_cons, Bool.or_eq_false_iff] at hnot
          refine ⟨a :: l₁, l₂, rfl, ?_⟩
          intro x hx
          rcases List.mem_cons.mp hx with h1 | h2
          · subst h1
            intro hk
            have := hnot.1
            simp [hk] at this
          · exact hpre x h2

theorem dedupEntries_subset (l : List Entry) :
    ∀ e ∈ dedupEntries l, e ∈ l := dedupAux_subset l []

/-! ## Claim C4: entry well-formedness invariant -/

theorem extract_mem_shape (letter mark : Char → Bool) (arts : List String)
    (text : String) :
    ∀ e ∈ extractWith letter mark arts text,
      (e.article = "" ∨ e.article ∈ arts) ∧
        (∃ t ∈ tokensOf letter mark text, e.noun = lowerStr t) ∧
        e.english = "" := by
  intro e he
  rw [extractWith] at he
  by_cases h : text = ""
  · simp [h] at he
  · simp only [h, if_neg] at he
    exact pairItems_mem_shape arts _ e (dedupEntries_subset _ e he)

/-- **C4**: every entry returned by the extraction satisfies the data
model invariant: its noun is non-empty and equal to its own lowercase
form, and its article is either empty or a member of the fixed
determiner set. -/
theorem claimC4_entry_invariants (letter mark : Char → Bool) (text : String) :
    ∀ e ∈ extractStructuredWords letter mark text,
      e.noun ≠ "" ∧ lowerStr e.noun = e.noun ∧
        (e.article = "" ∨ e.article ∈ ARTICLES) := by
  intro e he
  rcases extract_mem_shape letter mark ARTICLES text e he with ⟨ha, ⟨t, ht, hn⟩, _⟩
  refine ⟨?_, ?_, ha⟩
  · rw [hn]
    rw [Ne, lowerStr_eq_empty_iff]
    exact tokensOf_nonempty letter mark text t ht
  · rw [hn, lowerStr_lowerStr]

/-- Witness for C4 at a concrete input. -/
theorem claimC4_witness :
    (⟨"der", "hund", "der hund", ""⟩ : Entry).noun ≠ "" ∧
      lowerStr (⟨"der", "hund", "der hund", ""⟩ : Entry).noun =
        (⟨"der", "hund", "der hund", ""⟩ : Entry).noun ∧
      ((⟨"der", "hund", "der hund", ""⟩ : Entry).article = "" ∨
        (⟨"der", "hund", "der hund", ""⟩ : Entry).article ∈ ARTICLES) :=
  claimC4_entry_invariants asciiLetter asciiMark "Der Hund lief."
    ⟨"der", "hund", "der hund", ""⟩ (by decide)

/-! ## Claim C2: deduplication, first occurrence wins -/

theorem entryKey_congr {a b : Entry} (ha : a.article = b.article)
    (hn : a.noun = b.noun) : entryKey a = entryKey b := by
  rw [entryKey, entryKey, ha, hn]

theorem bare_pair_key_ne (e1 e2 : Entry) (hs : ' ' ∉ e1.noun.data)
    (h1 : e1.article = "") (h2 : e2.article ≠ "") :
    entryKey e1 ≠ entryKey e2 := by
  intro hk
  apply hs
  have hd := congrArg String.data hk
  rw [entryKey, entryKey, if_pos h1, if_neg h2, String.data_append,
    String.data_append, String.data_append] at hd
  simp only [List.nil_append] at hd
  rw [hd]
  simp

theorem extract_noun_no_space (letter mark : Char → Bool) (text : String)
    (hl : letter ' ' = false) (hm : mark ' ' = false) :
    ∀ e ∈ extractStructuredWords letter mark text, ' ' ∉ e.noun.data := by
  intro e he
  rcases extract_mem_shape letter mark ARTICLES text e he with ⟨_, ⟨t, ht, hn⟩, _⟩
  rw [hn]
  exact lowerStr_no_space (tokensOf_no_space letter mark text hl hm t ht)

theorem extract_eq_dedup (letter mark : Char → Bool) (arts : List String)
    (text : String) (h : text ≠ "") :
    extractWith letter mark arts text =
      dedupAux (pairItems arts (tokensOf letter mark text)) [] := by
  rw [extractWith, if_neg h]
  rfl

/-- **C2**: the output sequence contains no two entries with the same
(article, noun) key; the output is a sublist of the emitted sequence
(so positions follow first-appearance order), each kept entry is the
first emitted occurrence of its dedup key, the dedup key never
identifies a bare entry with a paired entry, and
`extract("Hund hund DER Hund")` is exactly the bare `hund` followed by
the pair `der hund`. -/
theorem claimC2_dedup_first_occurrence (letter mark : Char → Bool)
    (text : String) (hl : letter ' ' = false) (hm : mark ' ' = false) :
    ((extractStructuredWords letter mark text).Pairwise
        (fun a b => ¬(a.article = b.article ∧ a.noun = b.noun))) ∧
      (extractStructuredWords letter mark text).Sublist
        (pairItems ARTICLES (tokensOf letter mark text)) ∧
      (∀ e ∈ extractStructuredWords letter mark text,
        ∃ l₁ l₂,
          pairItems ARTICLES (tokensOf letter mark text) = l₁ ++ e :: l₂ ∧
            ∀ x ∈ l₁, entryKey x ≠ entryKey e) ∧
      (∀ e1 ∈ extractStructuredWords letter mark text,
        ∀ e2 ∈ extractStructuredWords letter mark text,
          e1.article = "" → e2.article ≠ "" → entryKey e1 ≠ entryKey e2) ∧
      extractStructuredWords asciiLetter asciiMark "Hund hund DER Hund" =
        [⟨"", "hund", "hund", ""⟩, ⟨"der", "hund", "der hund", ""⟩] := by
  by_cases h : text = ""
  · refine ⟨?_, ?_, ?_, ?_, by decide⟩
    · simp [extractStructuredWords, extractWith, h]
    · simp [extractStructuredWords, extractWith, h]
    · simp [extractStructuredWords, extractWith, h]
    · simp [extractStructuredWords, extractWith, h]
  · have heq := extract_eq_dedup letter mark ARTICLES text h
    simp only [extractStructuredWords]
    refine ⟨?_, ?_, ?_, ?_, by decide⟩
    · rw [heq]
      refine (dedupAux_pairwise_keys _ []).imp ?_
      intro a b hk hab
      exact hk (entryKey_congr hab.1 hab.2)
    · rw [heq]
      exact dedupAux_sublist _ []
    · rw [heq]
      exact dedupAux_first_wins _ []
    · intro e1 he1 e2 he2 h1 h2
      refine bare_pair_key_ne e1 e2 ?_ h1 h2
      exact extract_noun_no_space letter mark text hl hm e1
        (by simpa [extractStructuredWords] using he1)

/-- Witness for C2: the concrete dedup example, obtained from the
theorem at concrete inputs. -/
theorem claimC2_witness :
    extractStructuredWords asciiLetter asciiMark "Hund hund DER Hund" =
      [⟨"", "hund", "hund", ""⟩, ⟨"der", "hund", "der hund", ""⟩] :=
  (claimC2_dedup_first_occurrence asciiLetter asciiMark "Hund hund DER Hund"
    rfl rfl).2.2.2.2

/-! ## Scan positions

`scanIdx` makes explicit which loop indices `i` the pairing loop of
`extractStructuredWords` actually visits: `i` starts at `0` and
advances by `2` after a pairing step and by `1` otherwise. -/

def scanIdx (arts : List String) : List String → List Nat
  | [] => []
  | [_] => [0]
  | t :: t2 :: rest =>
      if arts.contains (lowerStr t) then
        0 :: (scanIdx arts rest).map (· + 2)
      else
        0 :: (scanIdx arts (t2 :: rest)).map (· + 1)

theorem getD_cons_succ' (a : String) (l : List String) (n : Nat) :
    (a :: l).getD (n + 1) "" = l.getD n "" := List.getD_cons_succ

theorem getD_cons_two (a b : String) (l : List String) (n : Nat) :
    (a :: b :: l).getD (n + 2) "" = l.getD n "" := by
  rw [(by omega : n + 2 = (n + 1) + 1), getD_cons_succ', getD_cons_succ']

theorem scanIdx_ne_nil_of_mem {arts : List String} {ts : List String}
    {i : Nat} (h : i ∈ scanIdx arts ts) : ts ≠ [] := by
  intro hts
  subst hts
  simp [scanIdx] at h

theorem scan_pair_emitted (arts : List String) (ts : List String) (i : Nat)
    (hi : i ∈ scanIdx arts ts)
    (ha : arts.contains (lowerStr (ts.getD i "")) = true)
    (hnext : i + 1 < ts.length) :
    (⟨lowerStr (ts.getD i ""), lowerStr (ts.getD (i + 1) ""),
        lowerStr (ts.getD i "") ++ " " ++ lowerStr (ts.getD (i + 1) ""),
        ""⟩ : Entry) ∈ pairItems arts ts ∧
      (i + 1) ∉ scanIdx arts ts := by
  induction ts using scanIdx.induct arts generalizing i with
  | case1 => simp [scanIdx] at hi
  | case2 t =>
      rw [scanIdx] at hi
      simp at hi
      subst hi
      simp at hnext
  | case3 t t2 rest hc ih =>
      rw [scanIdx] at hi
      simp only [hc, if_pos, List.mem_cons, List.mem_map] at hi
      rcases hi with rfl | ⟨j, hj, rfl⟩
      · constructor
        · rw [pairItems]
          simp only [hc, if_pos]
          exact List.mem_cons_self _ _
        · rw [scanIdx]
          simp only [hc, if_pos, List.mem_cons, List.mem_map]
          rintro (h0 | ⟨j, _, hj2⟩)
          · exact absurd h0 (by omega)
          · omega
      · have hget2 : (t :: t2 :: rest).getD (j + 2) "" = rest.getD j "" :=
          getD_cons_two t t2 rest j
        have hget3 : (t :: t2 :: rest).getD (j + 2 + 1) "" = rest.getD (j + 1) "" := by
          rw [(by omega : j + 2 + 1 = (j + 1) + 2)]
          exact getD_cons_two t t2 rest (j + 1)
        rw [hget2] at ha
        rw [hget2, hget3]
        have hnext2 : j + 1 < rest.length := by
          simp only [List.length_cons] at hnext
          omega
        have ha2 : arts.contains (lowerStr (rest.getD j "")) = true := ha
        rcases ih j hj ha2 hnext2 with ⟨hmem, hnot⟩
        constructor
        · rw [pairItems]
          simp only [hc, if_pos]
          exact List.mem_cons_of_mem _ hmem
        · rw [scanIdx]
          simp only [hc, if_pos, List.mem_cons, List.mem_map]
          rintro (h0 | ⟨k, hk, hk2⟩)
          · exact absurd h0 (by omega)
          · have : k = j + 1 := by omega
            exact hnot (this ▸ hk)
  | case4 t t2 rest hc ih =>
      rw [Bool.not_eq_true] at hc
      rw [scanIdx] at hi
      simp only [hc, Bool.false_eq_true, if_false, List.mem_cons,
        List.mem_map] at hi
      rcases hi with rfl | ⟨j, hj, rfl⟩
      · rw [List.getD_cons_zero] at ha
        rw [ha] at hc
        exact absurd hc (by simp)
      · have hget2 : (t :: t2 :: rest).getD (j + 1) "" = (t2 :: rest).getD j "" :=
          getD_cons_succ' t (t2 :: rest) j
        have hget3 : (t :: t2 :: rest).getD (j + 1 + 1) "" = (t2 :: rest).getD (j + 1) "" :=
          getD_cons_succ' t (t2 :: rest) (j + 1)
        rw [hget2] at ha
        rw [hget2, hget3]
        have hnext2 : j + 1 < (t2 :: rest).length := by
          simp only [List.length_cons] at hnext ⊢
          omega
        rcases ih j hj ha hnext2 with ⟨hmem, hnot⟩
        constructor
        · rw [pairItems]
          simp only [hc, Bool.false_eq_true, if_false]
          exact List.mem_cons_of_mem _ hmem
        · rw [scanIdx]
          simp only [hc, Bool.false_eq_true, if_false, List.mem_cons,
            List.mem_map]
          rintro (h0 | ⟨k, hk, hk2⟩)
          · exact absurd h0 (by omega)
          · have : k = j + 1 := by omega
            exact hnot (this ▸ hk)

/-! ## Claim C1: article pairing at visited scan positions -/

/-- **C1** is false as literally stated, quantifying over every
position of the token sequence: in `"die der Hund"` the token at
position 1 is `der`, a determiner with a successor token, yet the
extraction emits no pair `{article:"der", noun:"hund"}` — position 1
was already consumed as the lookahead noun of the pair formed at
position 0. -/
theorem claimC1_counterexample :
    ARTICLES.contains
        (lowerStr ((tokensOf asciiLetter asciiMark "die der Hund").getD 1 "")) =
          true ∧
      1 + 1 < (tokensOf asciiLetter asciiMark "die der Hund").length ∧
      (∀ e ∈ pairItems ARTICLES (tokensOf asciiLetter asciiMark "die der Hund"),
        ¬(e.article = "der" ∧ e.noun = "hund")) ∧
      (∀ e ∈ extractStructuredWords asciiLetter asciiMark "die der Hund",
        ¬(e.article = "der" ∧ e.noun = "hund")) := by decide

/-- **C1** (amended: quantify over the positions actually reached by
the left-to-right scan, not over all positions): for every scan-visited
position `i` whose lowercased token is in the determiner set and has a
successor token, the scan emits the pair built from the lowercased
tokens at `i` and `i+1` and advances past both, so position `i+1` is
never visited (the consumed token is never paired on its own and never
emitted as a bare entry); moreover `extract("Der Hund lief.")` is the
pair `der hund` followed by the bare entry `lief`. -/
theorem claimC1_pairing_amended (letter mark : Char → Bool) (text : String)
    (i : Nat) (hi : i ∈ scanIdx ARTICLES (tokensOf letter mark text))
    (ha : ARTICLES.contains
      (lowerStr ((tokensOf letter mark text).getD i "")) = true)
    (hnext : i + 1 < (tokensOf letter mark text).length) :
    ((⟨lowerStr ((tokensOf letter mark text).getD i ""),
        lowerStr ((tokensOf letter mark text).getD (i + 1) ""),
        lowerStr ((tokensOf letter mark text).getD i "") ++ " " ++
          lowerStr ((tokensOf letter mark text).getD (i + 1) ""), ""⟩ : Entry) ∈
        pairItems ARTICLES (tokensOf letter mark text)) ∧
      (i + 1) ∉ scanIdx ARTICLES (tokensOf letter mark text) ∧
      extractStructuredWords asciiLetter asciiMark "Der Hund lief." =
        [⟨"der", "hund", "der hund", ""⟩, ⟨"", "lief", "lief", ""⟩] := by
  rcases scan_pair_emitted ARTICLES (tokensOf letter mark text) i hi ha hnext with
    ⟨h1, h2⟩
  exact ⟨h1, h2, by decide⟩

/-- Witness for the amended C1 at `"Der Hund lief."`, position 0. -/
theorem claimC1_witness :
    ((⟨lowerStr ((tokensOf asciiLetter asciiMark "Der Hund lief.").getD 0 ""),
        lowerStr ((tokensOf asciiLetter asciiMark "Der Hund lief.").getD (0 + 1) ""),
        lowerStr ((tokensOf asciiLetter asciiMark "Der Hund lief.").getD 0 "") ++ " " ++
          lowerStr ((tokensOf asciiLetter asciiMark "Der Hund lief.").getD (0 + 1) ""),
        ""⟩ : Entry) ∈
        pairItems ARTICLES (tokensOf asciiLetter asciiMark "Der Hund lief.")) ∧
      (0 + 1) ∉ scanIdx ARTICLES (tokensOf asciiLetter asciiMark "Der Hund lief.") ∧
      extractStructuredWords asciiLetter asciiMark "Der Hund lief." =
        [⟨"der", "hund", "der hund", ""⟩, ⟨"", "lief", "lief", ""⟩] :=
  claimC1_pairing_amended asciiLetter asciiMark "Der Hund lief." 0
    (by decide) (by decide) (by decide)

/-! ## Claim C3: a determiner as the last token -/

theorem entryKey_bare (n d : String) :
    entryKey ⟨"", n, d, ""⟩ = n := by
  rw [entryKey]
  simp

theorem articles_wf : ∀ a ∈ ARTICLES, a ≠ "" ∧ ' ' ∉ a.data := by decide

theorem pairItems_trailing_article (ts : List String)
    (hreach : ts.length - 1 ∈ scanIdx ARTICLES ts)
    (hlast : ARTICLES.contains (lowerStr (ts.getD (ts.length - 1) "")) = true) :
    ∃ front, pairItems ARTICLES ts = front ++
        [⟨"", lowerStr (ts.getD (ts.length - 1) ""),
          lowerStr (ts.getD (ts.length - 1) ""), ""⟩] ∧
      ∀ x ∈ front, entryKey x ≠ lowerStr (ts.getD (ts.length - 1) "") := by
  induction ts using scanIdx.induct ARTICLES with
  | case1 => simp [scanIdx] at hreach
  | case2 t =>
      refine ⟨[], ?_, by simp⟩
      simp only [List.length_singleton, Nat.sub_self, List.getD_cons_zero]
      rw [pairItems]
      simp
  | case3 t t2 rest hc ih =>
      rw [scanIdx] at hreach
      simp only [hc, if_pos, List.length_cons, List.mem_cons, List.mem_map] at hreach
      rcases hreach with h0 | ⟨j, hj, hj2⟩
      · omega
      · have hjval : j = rest.length - 1 := by omega
        have hrlen : 1 ≤ rest.length := by omega
        have hget : (t :: t2 :: rest).getD (rest.length + 2 - 1) "" =
            rest.getD (rest.length - 1) "" := by
          rw [(by omega : rest.length + 2 - 1 = (rest.length - 1) + 2)]
          exact getD_cons_two t t2 rest (rest.length - 1)
        simp only [List.length_cons] at hlast ⊢
        rw [hget] at hlast
        rw [hget]
        subst hjval
        rcases ih hj hlast with ⟨front, heq, hkeys⟩
        have hwmem : lowerStr (rest.getD (rest.length - 1) "") ∈ ARTICLES := by
          simpa using hlast
        have htmem : lowerStr t ∈ ARTICLES := by simpa using hc
        refine ⟨⟨lowerStr t, lowerStr t2,
          lowerStr t ++ " " ++ lowerStr t2, ""⟩ :: front, ?_, ?_⟩
        · rw [pairItems]
          simp only [hc, if_pos, heq]
          rfl
        · intro x hx
          rcases List.mem_cons.mp hx with rfl | hx2
          · rw [← entryKey_bare (lowerStr (rest.getD (rest.length - 1) ""))
              (lowerStr (rest.getD (rest.length - 1) ""))]
            refine Ne.symm (bare_pair_key_ne _ _ ?_ rfl ?_)
            · exact (articles_wf _ hwmem).2
            · exact (articles_wf _ htmem).1
          · exact hkeys x hx2
  | case4 t t2 rest hc ih =>
      rw [Bool.not_eq_true] at hc
      rw [scanIdx] at hreach
      simp only [hc, Bool.false_eq_true, if_false, List.length_cons,
        List.mem_cons, List.mem_map] at hreach
      rcases hreach with h0 | ⟨j, hj, hj2⟩
      · omega
      · have hjval : j = (t2 :: rest).length - 1 := by simp; omega
        have hget : (t :: t2 :: rest).getD (rest.length + 2 - 1) "" =
            (t2 :: rest).getD ((t2 :: rest).length - 1) "" := by
          rw [(by omega : rest.length + 2 - 1 = rest.length + 1),
            getD_cons_succ' t (t2 :: rest) rest.length]
          simp
        simp only [List.length_cons] at hlast ⊢
        rw [hget] at hlast
        rw [hget]
        subst hjval
        rcases ih hj hlast with ⟨front, heq, hkeys⟩
        have hwmem : lowerStr ((t2 :: rest).getD ((t2 :: rest).length - 1) "") ∈
            ARTICLES := by simpa using hlast
        have htmem : lowerStr t ∉ ARTICLES := by
          intro hmem
          have : ARTICLES.contains (lowerStr t) = true := by simpa using hmem
          rw [this] at hc
          simp at hc
        refine ⟨⟨"", lowerStr t, lowerStr t, ""⟩ :: front, ?_, ?_⟩
        · rw [pairItems]
          simp only [hc, Bool.false_eq_true, if_false, heq]
          rfl
        · intro x hx
          rcases List.mem_cons.mp hx with rfl | hx2
          · rw [entryKey_bare]
            intro hk
            exact htmem (hk ▸ hwmem)
          · exact hkeys x hx2

theorem dedupAux_mem_last (front : List Entry) (e : Entry) (seen : List String)
    (hkeys : ∀ x ∈ front, entryKey x ≠ entryKey e)
    (hseen : seen.contains (entryKey e) = false) :
    e ∈ dedupAux (front ++ [e]) seen := by
  induction front generalizing seen with
  | nil =>
      rw [List.nil_append, dedupAux]
      have hnot : entryKey e ∉ seen := by simpa using hseen
      simp [hnot]
  | cons x front ih =>
      rw [List.cons_append, dedupAux]
      have hkf : ∀ y ∈ front, entryKey y ≠ entryKey e :=
        fun y hy => hkeys y (List.mem_cons_of_mem x hy)
      by_cases h : seen.contains (entryKey x) = true
      · simp only [h, if_pos]
        exact ih seen hkf hseen
      · rw [Bool.not_eq_true] at h
        simp only [h]
        refine List.mem_cons_of_mem x (ih (entryKey x :: seen) hkf ?_)
        have hxe : entryKey x ≠ entryKey e := hkeys x (List.mem_cons_self x front)
        simp only [List.contains_cons, Bool.or_eq_false_iff]
        refine ⟨?_, hseen⟩
        simp only [beq_eq_false_iff_ne, ne_eq]
        exact fun hcontra => hxe hcontra.symm

/-- **C3** is false as literally stated: in `"die der"` the last token
`der` (lowercased) is in the determiner set, yet it is not emitted as a
bare entry — it is consumed as the noun of the pair `die der`. -/
theorem claimC3_counterexample :
    ARTICLES.contains
        (lowerStr ((tokensOf asciiLetter asciiMark "die der").getD
          ((tokensOf asciiLetter asciiMark "die der").length - 1) "")) = true ∧
      (∀ e ∈ extractStructuredWords asciiLetter asciiMark "die der",
        ¬(e.article = "" ∧ e.noun = "der")) ∧
      extractStructuredWords asciiLetter asciiMark "die der" =
        [⟨"die", "der", "die der", ""⟩] := by decide

/-- **C3** (amended: require additionally that the pairing scan reaches
the last position, i.e. the trailing determiner was not consumed as the
lookahead noun of a pair formed at the previous visited position): a
determiner that is the last token and is reached by the scan is emitted
as a bare entry whose noun is its own lowercased value, and survives
deduplication into the final output. -/
theorem claimC3_trailing_amended (letter mark : Char → Bool) (text : String)
    (hreach : (tokensOf letter mark text).length - 1 ∈
      scanIdx ARTICLES (tokensOf letter mark text))
    (hlast : ARTICLES.contains
      (lowerStr ((tokensOf letter mark text).getD
        ((tokensOf letter mark text).length - 1) "")) = true) :
    (⟨"", lowerStr ((tokensOf letter mark text).getD
        ((tokensOf letter mark text).length - 1) ""),
      lowerStr ((tokensOf letter mark text).getD
        ((tokensOf letter mark text).length - 1) ""), ""⟩ : Entry) ∈
      extractStructuredWords letter mark text := by
  have hne : tokensOf letter mark text ≠ [] := scanIdx_ne_nil_of_mem hreach
  have htext : text ≠ "" := by
    intro h
    subst h
    exact hne rfl
  rcases pairItems_trailing_article (tokensOf letter mark text) hreach hlast with
    ⟨front, heq, hkeys⟩
  rw [extractStructuredWords, extract_eq_dedup letter mark ARTICLES text htext,
    heq]
  refine dedupAux_mem_last front _ [] ?_ rfl
  intro x hx
  rw [entryKey_bare]
  exact hkeys x hx

/-- Witness for the amended C3 at `"Hund der"`. -/
theorem claimC3_witness :
    (⟨"", lowerStr ((tokensOf asciiLetter asciiMark "Hund der").getD
        ((tokensOf asciiLetter asciiMark "Hund der").length - 1) ""),
      lowerStr ((tokensOf asciiLetter asciiMark "Hund der").getD
        ((tokensOf asciiLetter asciiMark "Hund der").length - 1) ""),
      ""⟩ : Entry) ∈
      extractStructuredWords asciiLetter asciiMark "Hund der" :=
  claimC3_trailing_amended asciiLetter asciiMark "Hund der"
    (by decide) (by decide)

/-! ## Claim C10: output empty iff no letter in the input -/

theorem tokenize_eq_nil_iff (letter mark : Char → Bool) (cs : List Char) :
    tokenize letter mark cs = [] ↔ ∀ c ∈ cs, letter c = false := by
  constructor
  · intro h c hc
    by_contra hne
    rw [Bool.not_eq_false] at hne
    induction cs with
    | nil => simp at hc
    | cons a rest ih =>
        rcases List.mem_cons.mp hc with rfl | hmem
        · rw [tokenize_cons_letter letter mark rest hne] at h
          exact List.noConfusion h
        · by_cases ha : letter a = true
          · rw [tokenize_cons_letter letter mark rest ha] at h
            exact List.noConfusion h
          · rw [Bool.not_eq_true] at ha
            rw [tokenize_cons_skip letter mark rest ha] at h
            exact ih h hmem
  · exact tokenize_eq_nil letter mark cs

theorem pairItems_eq_nil_iff (arts : List String) (ts : List String) :
    pairItems arts ts = [] ↔ ts = [] := by
  cases ts with
  | nil => simp [pairItems]
  | cons t rest =>
      cases rest with
      | nil => simp [pairItems]
      | cons t2 rest2 =>
          rw [pairItems]
          split <;> simp

theorem dedupEntries_eq_nil_iff (l : List Entry) :
    dedupEntries l = [] ↔ l = [] := by
  cases l with
  | nil => simp [dedupEntries, dedupAux]
  | cons e rest => simp [dedupEntries, dedupAux]

/-- **C10**: a non-empty input containing no letter codepoint extracts
to the empty sequence; in general the output sequence is non-empty if
and only if the input contains at least one letter codepoint. -/
theorem claimC10_empty_iff_no_letter (letter mark : Char → Bool)
    (text : String) :
    ((∀ c ∈ text.data, letter c = false) →
        extractStructuredWords letter mark text = []) ∧
      (extractStructuredWords letter mark text ≠ [] ↔
        ∃ c ∈ text.data, letter c = true) := by
  have hmain : extractStructuredWords letter mark text = [] ↔
      ∀ c ∈ text.data, letter c = false := by
    by_cases h : text = ""
    · subst h
      simp only [extractStructuredWords, extractWith, if_pos rfl]
      constructor
      · intro _ c hc
        simp at hc
      · intro _
        rfl
    · rw [extractStructuredWords, extract_eq_dedup letter mark ARTICLES text h]
      rw [show dedupAux (pairItems ARTICLES (tokensOf letter mark text)) [] =
        dedupEntries (pairItems ARTICLES (tokensOf letter mark text)) from rfl]
      rw [dedupEntries_eq_nil_iff, pairItems_eq_nil_iff]
      rw [tokensOf]
      rw [List.map_eq_nil_iff]
      exact tokenize_eq_nil_iff letter mark text.data
  constructor
  · exact hmain.mpr
  · rw [Ne, hmain]
    push_neg
    constructor
    · rintro ⟨c, hc, hne⟩
      exact ⟨c, hc, by simpa using hne⟩
    · rintro ⟨c, hc, htrue⟩
      exact ⟨c, hc, by simp [htrue]⟩

/-- Witness for C10 on a letterless input. -/
theorem claimC10_witness :
    extractStructuredWords asciiLetter asciiMark "123 ?! 456" = [] :=
  (claimC10_empty_iff_no_letter asciiLetter asciiMark "123 ?! 456").1 (by decide)

/-! ## Claim C7: determinism and purity -/

/-- Structural identity of entry sequences: same length, and the same
article, noun, display and english fields at every position. -/
def structIdentical (l1 l2 : List Entry) : Prop :=
  l1.length = l2.length ∧ ∀ i : Nat,
    (l1.getD i ⟨"", "", "", ""⟩).article = (l2.getD i ⟨"", "", "", ""⟩).article ∧
      (l1.getD i ⟨"", "", "", ""⟩).noun = (l2.getD i ⟨"", "", "", ""⟩).noun ∧
      (l1.getD i ⟨"", "", "", ""⟩).display = (l2.getD i ⟨"", "", "", ""⟩).display ∧
      (l1.getD i ⟨"", "", "", ""⟩).english = (l2.getD i ⟨"", "", "", ""⟩).english

/-- **C7**: the extraction is deterministic and pure: it is a function
of the text and the determiner set alone (the embedding takes no other
state), so re-running it on the same text yields equal — in particular
structurally identical — sequences. -/
theorem claimC7_deterministic (letter mark : Char → Bool) (arts : List String)
    (text : String) :
    extractWith letter mark arts text = extractWith letter mark arts text ∧
      structIdentical (extractWith letter mark arts text)
        (extractWith letter mark arts text) ∧
      structIdentical (extractStructuredWords letter mark text)
        (extractStructuredWords letter mark text) :=
  ⟨rfl, ⟨rfl, fun _ => ⟨rfl, rfl, rfl, rfl⟩⟩,
    ⟨rfl, fun _ => ⟨rfl, rfl, rfl, rfl⟩⟩⟩

/-! ## Claim C5: empty and non-string inputs -/

/-- JavaScript values that can be passed to `extractStructuredWords`:
the function is dynamically typed, so besides strings a caller can pass
numbers, `null` or `undefined`. -/
inductive JSVal where
  | str (s : String)
  | num (n : Int)
  | nullV
  | undefV
deriving DecidableEq

/-- JavaScript truthiness, as tested by the `if (!text) return []`
guard on line 25 of `src/app.js`: the empty string, `0`, `null` and
`undefined` are falsy. -/
def truthy : JSVal → Bool
  | .str s => !(s == "")
  | .num n => !(n == 0)
  | .nullV => false
  | .undefV => false

/-- `extractStructuredWords` applied to an arbitrary JavaScript value:
falsy inputs return `[]` through the guard; truthy strings run the
extraction; a truthy non-string reaches `text.matchAll(wordRegex)` and
raises a `TypeError`, because only strings have a `matchAll` method. -/
def extractJS (letter mark : Char → Bool) (v : JSVal) :
    Except String (List Entry) :=
  if truthy v then
    match v with
    | .str s => .ok (extractStructuredWords letter mark s)
    | _ => .error "TypeError: text.matchAll is not a function"
  else
    .ok []

/-- **C5** is false as literally stated: the nonzero number `5` is a
non-string input, yet the call does not return the empty sequence — it
raises a `TypeError`, because the falsy guard does not catch truthy
non-strings. -/
theorem claimC5_counterexample :
    extractJS asciiLetter asciiMark (JSVal.num 5) ≠ Except.ok [] ∧
      extractJS asciiLetter asciiMark (JSVal.num 5) =
        Except.error "TypeError: text.matchAll is not a function" := by
  constructor
  · intro h
    simp [extractJS, truthy] at h
  · rfl

/-- **C5** (amended: the guard returns `[]` exactly for falsy inputs):
the empty string, `null`, `undefined` and the number `0` all yield the
empty sequence without an error, and `extract("") = []`; a truthy
non-string input such as a nonzero number escapes the guard and raises
a `TypeError`. -/
theorem claimC5_falsy_guard (letter mark : Char → Bool) :
    extractJS letter mark (JSVal.str "") = Except.ok [] ∧
      extractJS letter mark JSVal.nullV = Except.ok [] ∧
      extractJS letter mark JSVal.undefV = Except.ok [] ∧
      extractJS letter mark (JSVal.num 0) = Except.ok [] ∧
      (∀ n : Int, n ≠ 0 →
        extractJS letter mark (JSVal.num n) =
          Except.error "TypeError: text.matchAll is not a function") ∧
      extractStructuredWords letter mark "" = [] := by
  refine ⟨rfl, rfl, rfl, rfl, ?_, rfl⟩
  intro n hn
  have ht : truthy (JSVal.num n) = true := by simp [truthy, hn]
  rw [extractJS, if_pos ht]
  intro s hs
  exact JSVal.noConfusion hs

/-- Witness for the amended C5 at the nonzero number 5. -/
theorem claimC5_witness :
    extractJS asciiLetter asciiMark (JSVal.num 5) =
      Except.error "TypeError: text.matchAll is not a function" :=
  (claimC5_falsy_guard asciiLetter asciiMark).2.2.2.2.1 5 (by decide)

/-! ## CSV export and parsing (claim C8)

The exporter is `doDownload` in `src/unnamed/part_000` (lines 208-217);
the same code is inlined in the `downloadCsvBtn` handler of
`src/app.js` (lines 165-172).  Strings are handled at the character
level: `escQuotes` is `str.replace(/"/g, '""')`, `needsQuote` is
`/[",\n]/.test(escaped)`, `joinSep` is `Array.prototype.join` with a
one-character separator. -/

/-- `str.replace(/"/g, '""')`: double every double-quote character. -/
def escQuotes : List Char → List Char
  | [] => []
  | c :: rest =>
      if c = '"' then '"' :: '"' :: escQuotes rest else c :: escQuotes rest

/-- `/[",\n]/.test(escaped)`: does the (escaped) field text force
quoting? -/
def needsQuote (cs : List Char) : Bool :=
  cs.any (fun c => c = '"' || c = ',' || c = '\n')

/-- One exported CSV field: escape the quotes, then wrap in double
quotes when the escaped text contains a quote, comma or newline. -/
def csvField (cs : List Char) : List Char :=
  let escaped := escQuotes cs
  if needsQuote escaped then '"' :: (escaped ++ ['"']) else escaped

/-- `Array.prototype.join(sep)` for a one-character separator. -/
def joinSep (sep : Char) : List (List Char) → List Char
  | [] => []
  | [f] => f
  | f :: g :: rest => f ++ sep :: joinSep sep (g :: rest)

/-- A standard streaming CSV reader: a state machine over the input
characters; outside quotes a comma ends the field and a newline ends
the record, a double quote enters quoted mode; inside quotes `""` is a
literal quote, a single `"` leaves quoted mode, and any other character
belongs to the field. -/
def parseCsvAux : Bool → List Char → List Char → List (List Char) →
    List (List (List Char)) → List (List (List Char))
  | _, [], f, row, rows => rows ++ [row ++ [f]]
  | false, '"' :: rest, f, row, rows => parseCsvAux true rest f row rows
  | false, ',' :: rest, f, row, rows =>
      parseCsvAux false rest [] (row ++ [f]) rows
  | false, '\n' :: rest, f, row, rows =>
      parseCsvAux false rest [] [] (rows ++ [row ++ [f]])
  | false, c :: rest, f, row, rows => parseCsvAux false rest (f ++ [c]) row rows
  | true, '"' :: '"' :: rest, f, row, rows =>
      parseCsvAux true rest (f ++ ['"']) row rows
  | true, '"' :: rest, f, row, rows => parseCsvAux false rest f row rows
  | true, c :: rest, f, row, rows => parseCsvAux true rest (f ++ [c]) row rows

/-- Parse a CSV text to its records of string fields. -/
def parseCsv (s : String) : List (List String) :=
  (parseCsvAux false s.data [] [] []).map
    (fun r => r.map (fun f => (⟨f⟩ : String)))

/-- The header row `['English','GermanNoun','Article','ExampleSentence']`. -/
def csvHeaderRow : List (List Char) :=
  ["English".data, "GermanNoun".data, "Article".data, "ExampleSentence".data]

/-- One entry row `[ it.english || '', it.noun, it.article || '', '' ]`. -/
def entryRowCols (e : Entry) : List (List Char) :=
  [(if e.english = "" then "" else e.english).data, e.noun.data,
    (if e.article = "" then "" else e.article).data, []]

/-- Header plus one row per entry. -/
def csvTable (l : List Entry) : List (List (List Char)) :=
  csvHeaderRow :: l.map entryRowCols

/-- The CSV text produced by the export code for an entry list:
`all.map(cols => cols.map(esc).join(',')).join('\n')`. -/
def csvExport (l : List Entry) : String :=
  ⟨joinSep '\n' ((csvTable l).map (fun r => joinSep ',' (r.map csvField)))⟩

theorem joinSep_singleton (sep : Char) (f : List Char) :
    joinSep sep [f] = f := rfl

theorem joinSep_map_cons2 {α : Type} (sep : Char) (f g : α) (rest : List α)
    (h : α → List Char) :
    joinSep sep ((f :: g :: rest).map h) =
      h f ++ sep :: joinSep sep ((g :: rest).map h) := rfl

theorem parse_plain (f : List Char) (rest acc : List Char)
    (row : List (List Char)) (rows : List (List (List Char)))
    (hf : ∀ c ∈ f, ¬c = '"' ∧ ¬c = ',' ∧ ¬c = '\n') :
    parseCsvAux false (f ++ rest) acc row rows =
      parseCsvAux false rest (acc ++ f) row rows := by
  induction f generalizing acc with
  | nil => simp
  | cons c f ih =>
      rcases hf c (by simp) with ⟨h1, h2, h3⟩
      rw [List.cons_append]
      rw [show parseCsvAux false (c :: (f ++ rest)) acc row rows =
        parseCsvAux false (f ++ rest) (acc ++ [c]) row rows by
          simp [parseCsvAux, h1, h2, h3]]
      rw [ih _ (fun x hx => hf x (by simp [hx]))]
      simp

theorem escQuotes_no_quote {cs : List Char} (h : '"' ∉ cs) :
    escQuotes cs = cs := by
  induction cs with
  | nil => rfl
  | cons c rest ih =>
      rw [escQuotes]
      have hc : ¬c = '"' := fun hcc => h (by simp [hcc])
      rw [if_neg hc, ih (fun hm => h (by simp [hm]))]

theorem mem_escQuotes {cs : List Char} (h : '"' ∈ cs) :
    '"' ∈ escQuotes cs := by
  induction cs with
  | nil => simp at h
  | cons c rest ih =>
      rw [escQuotes]
      by_cases hc : c = '"'
      · simp [hc]
      · rcases List.mem_cons.mp h with h1 | h2
        · exact absurd h1.symm hc
        · simp [hc, ih h2]

theorem parse_quoted (f : List Char) (rest acc : List Char)
    (row : List (List Char)) (rows : List (List (List Char)))
    (hd : ∀ d rest2, rest = d :: rest2 → ¬d = '"') :
    parseCsvAux true (escQuotes f ++ '"' :: rest) acc row rows =
      parseCsvAux false rest (acc ++ f) row rows := by
  induction f generalizing acc with
  | nil =>
      rw [escQuotes, List.nil_append]
      cases rest with
      | nil => simp [parseCsvAux]
      | cons d rest2 =>
          have hdne := hd d rest2 rfl
          simp [parseCsvAux, hdne]
  | cons c f ih =>
      by_cases h : c = '"'
      · subst h
        rw [escQuotes, if_pos rfl, List.cons_append, List.cons_append]
        rw [show parseCsvAux true ('"' :: '"' :: (escQuotes f ++ '"' :: rest))
            acc row rows =
          parseCsvAux true (escQuotes f ++ '"' :: rest) (acc ++ ['"']) row rows by
            simp [parseCsvAux]]
        rw [ih]
        simp
      · rw [escQuotes, if_neg h, List.cons_append]
        rw [show parseCsvAux true (c :: (escQuotes f ++ '"' :: rest)) acc row rows =
          parseCsvAux true (escQuotes f ++ '"' :: rest) (acc ++ [c]) row rows by
            simp [parseCsvAux, h]]
        rw [ih]
        simp

theorem parse_field (f rest : List Char) (row : List (List Char))
    (rows : List (List (List Char)))
    (hd : ∀ d rest2, rest = d :: rest2 → ¬d = '"') :
    parseCsvAux false (csvField f ++ rest) [] row rows =
      parseCsvAux false rest f row rows := by
  rw [csvField]
  by_cases h : needsQuote (escQuotes f) = true
  · simp only [h, if_pos]
    rw [List.cons_append, List.append_assoc]
    rw [show parseCsvAux false ('"' :: (escQuotes f ++ (['"'] ++ rest)))
        [] row rows =
      parseCsvAux true (escQuotes f ++ (['"'] ++ rest)) [] row rows by
        simp [parseCsvAux]]
    rw [show (['"'] ++ rest : List Char) = '"' :: rest from rfl]
    rw [parse_quoted f rest [] row rows hd]
    simp
  · rw [Bool.not_eq_true] at h
    simp only [h, Bool.false_eq_true, if_false]
    have hq : '"' ∉ f := by
      intro hmem
      have h2 := mem_escQuotes hmem
      rw [needsQuote] at h
      rw [List.any_eq_false] at h
      have h3 := h '"' h2
      simp at h3
    rw [escQuotes_no_quote hq] at h ⊢
    have hplain : ∀ c ∈ f, ¬c = '"' ∧ ¬c = ',' ∧ ¬c = '\n' := by
      intro c hc
      rw [needsQuote, List.any_eq_false] at h
      have h4 := h c hc
      simp at h4
      exact ⟨fun hh => by simp [hh] at h4, fun hh => by simp [hh] at h4,
        fun hh => by simp [hh] at h4⟩
    rw [parse_plain f rest [] row rows hplain]
    simp

theorem parse_row_newline (cols : List (List Char)) (rest : List Char)
    (row : List (List Char)) (rows : List (List (List Char)))
    (hne : cols ≠ []) :
    parseCsvAux false (joinSep ',' (cols.map csvField) ++ '\n' :: rest)
        [] row rows =
      parseCsvAux false rest [] [] (rows ++ [row ++ cols]) := by
  induction cols generalizing row with
  | nil => exact absurd rfl hne
  | cons f cs ih =>
      cases cs with
      | nil =>
          rw [List.map_cons, List.map_nil, joinSep_singleton]
          rw [parse_field f ('\n' :: rest) row rows
            (by intro d r2 hdr; cases hdr; simp)]
          simp [parseCsvAux]
      | cons g cs2 =>
          rw [joinSep_map_cons2, List.append_assoc]
          rw [show (',' :: joinSep ',' ((g :: cs2).map csvField) ++ '\n' :: rest :
              List Char) =
            ',' :: (joinSep ',' ((g :: cs2).map csvField) ++ '\n' :: rest)
            from rfl]
          rw [parse_field f _ row rows (by intro d r2 hdr; cases hdr; simp)]
          rw [show parseCsvAux false
              (',' :: (joinSep ',' ((g :: cs2).map csvField) ++ '\n' :: rest))
              f row rows =
            parseCsvAux false
              (joinSep ',' ((g :: cs2).map csvField) ++ '\n' :: rest)
              [] (row ++ [f]) rows by
              simp [parseCsvAux]]
          rw [ih (row ++ [f]) (by simp)]
          simp

theorem parse_row_end (cols : List (List Char)) (row : List (List Char))
    (rows : List (List (List Char))) (hne : cols ≠ []) :
    parseCsvAux false (joinSep ',' (cols.map csvField)) [] row rows =
      rows ++ [row ++ cols] := by
  induction cols generalizing row with
  | nil => exact absurd rfl hne
  | cons f cs ih =>
      cases cs with
      | nil =>
          rw [List.map_cons, List.map_nil, joinSep_singleton]
          rw [show (csvField f : List Char) = csvField f ++ [] by simp]
          rw [parse_field f [] row rows (by intro d r2 hdr; cases hdr)]
          simp [parseCsvAux]
      | cons g cs2 =>
          rw [joinSep_map_cons2]
          rw [show (csvField f ++ ',' :: joinSep ',' ((g :: cs2).map csvField) :
              List Char) =
            csvField f ++ (',' :: joinSep ',' ((g :: cs2).map csvField))
            from rfl]
          rw [parse_field f _ row rows (by intro d r2 hdr; cases hdr; simp)]
          rw [show parseCsvAux false
              (',' :: joinSep ',' ((g :: cs2).map csvField)) f row rows =
            parseCsvAux false (joinSep ',' ((g :: cs2).map csvField))
              [] (row ++ [f]) rows by
              simp [parseCsvAux]]
          rw [ih (row ++ [f]) (by simp)]
          simp

theorem parse_rows (rs : List (List (List Char)))
    (acc : List (List (List Char))) (hne : rs ≠ [])
    (hr : ∀ r ∈ rs, r ≠ []) :
    parseCsvAux false
        (joinSep '\n' (rs.map (fun r => joinSep ',' (r.map csvField))))
        [] [] acc =
      acc ++ rs := by
  induction rs generalizing acc with
  | nil => exact absurd rfl hne
  | cons r rs2 ih =>
      cases rs2 with
      | nil =>
          rw [List.map_cons, List.map_nil, joinSep_singleton]
          rw [parse_row_end r [] acc (hr r (by simp))]
          simp
      | cons r2 rs3 =>
          rw [joinSep_map_cons2]
          rw [parse_row_newline r _ [] acc (hr r (by simp))]
          simp only [List.nil_append]
          rw [ih (acc ++ [r]) (by simp) (fun x hx => hr x (by simp [hx]))]
          simp

theorem csv_roundtrip_table (l : List Entry) :
    parseCsvAux false (csvExport l).data [] [] [] = csvTable l := by
  have hdata : (csvExport l).data =
      joinSep '\n' ((csvTable l).map (fun r => joinSep ',' (r.map csvField))) :=
    rfl
  rw [hdata, parse_rows (csvTable l) [] (by simp [csvTable]) ?_]
  · simp
  · intro r hr
    rw [csvTable] at hr
    rcases List.mem_cons.mp hr with rfl | h2
    · simp [csvHeaderRow]
    · rcases List.mem_map.mp h2 with ⟨e, _, rfl⟩
      simp [entryRowCols]

theorem entryRow_strings (e : Entry) :
    ((entryRowCols e).map (fun f => (⟨f⟩ : String))).getD 1 "" = e.noun ∧
      ((entryRowCols e).map (fun f => (⟨f⟩ : String))).getD 2 "" = e.article := by
  constructor
  · rfl
  · by_cases h : e.article = ""
    · simp only [entryRowCols, h, if_pos]
      simp [List.getD]
    · simp only [entryRowCols, h, if_neg]
      rfl

/-- **C8**: CSV export round-trips: serializing an extracted entry
sequence with the four-column format (English, GermanNoun, Article,
ExampleSentence; ExampleSentence empty; fields holding a quote, comma
or newline wrapped in double quotes with inner quotes doubled) and
parsing the result with a standard CSV reader recovers exactly the
serialized table (header plus one row per entry), and in particular the
same ordered list of (noun, article) pairs. -/
theorem claimC8_csv_roundtrip (letter mark : Char → Bool) (text : String) :
    parseCsv (csvExport (extractStructuredWords letter mark text)) =
        (csvTable (extractStructuredWords letter mark text)).map
          (fun r => r.map (fun f => (⟨f⟩ : String))) ∧
      ((parseCsv (csvExport (extractStructuredWords letter mark text))).drop 1).map
          (fun r => (r.getD 1 "", r.getD 2 "")) =
        (extractStructuredWords letter mark text).map
          (fun e => (e.noun, e.article)) := by
  have h1 : parseCsv (csvExport (extractStructuredWords letter mark text)) =
      (csvTable (extractStructuredWords letter mark text)).map
        (fun r => r.map (fun f => (⟨f⟩ : String))) := by
    rw [parseCsv, csv_roundtrip_table]
  refine ⟨h1, ?_⟩
  rw [h1, csvTable, List.map_cons, List.drop_succ_cons, List.drop_zero,
    List.map_map, List.map_map]
  induction extractStructuredWords letter mark text with
  | nil => rfl
  | cons e l ih =>
      rw [List.map_cons, List.map_cons, ih]
      rcases entryRow_strings e with ⟨hn, ha⟩
      rw [Function.comp_apply, Function.comp_apply, hn, ha]

/-! ## Claim C9: the three source variants

`src/unnamed/part_000` repeats the extraction of `src/app.js` verbatim
(same 18-token determiner set, same entry record with the `english`
field); it differs only in the translation collaborator (retry/backoff,
status messages).  `src/unnamed/part_001` has the same extraction with
a 3-token determiner set and an entry record without `english`. -/

namespace Part000

/-- `extractStructuredWords` pairing loop of `src/unnamed/part_000`
(lines 29–38). -/
def pairItems (arts : List String) : List String → List Entry
  | [] => []
  | t :: rest =>
      let w := lowerStr t
      match rest with
      | [] => [⟨"", w, w, ""⟩]
      | t2 :: rest2 =>
          if arts.contains w then
            let next := lowerStr t2
            ⟨w, next, w ++ " " ++ next, ""⟩ :: pairItems arts rest2
          else
            ⟨"", w, w, ""⟩ :: pairItems arts (t2 :: rest2)

/-- Dedup key of `src/unnamed/part_000` line 44. -/
def entryKey (e : Entry) : String :=
  (if e.article = "" then "" else e.article ++ " ") ++ e.noun

/-- Dedup loop of `src/unnamed/part_000` lines 41–49. -/
def dedupAux : List Entry → List String → List Entry
  | [], _ => []
  | e :: rest, seen =>
      if seen.contains (entryKey e) then dedupAux rest seen
      else e :: dedupAux rest (entryKey e :: seen)

/-- `extractStructuredWords` of `src/unnamed/part_000` (lines 25–51),
with the determiner set as a parameter. -/
def extractWith (letter mark : Char → Bool) (arts : List String)
    (text : String) : List Entry :=
  if text = "" then []
  else dedupAux (pairItems arts (tokensOf letter mark text)) []

/-- The `ARTICLES` set of `src/unnamed/part_000` (lines 14–18): the
same 18 tokens as `src/app.js`. -/
def ARTICLES : List String :=
  ["der", "die", "das", "den", "dem", "des",
   "ein", "eine", "einen", "einem", "einer", "eines",
   "kein", "keine", "keinen", "keinem", "keiner", "keines"]

/-- `extractStructuredWords` of `src/unnamed/part_000` with its own
determiner set. -/
def extractStructuredWords (letter mark : Char → Bool) (text : String) :
    List Entry :=
  extractWith letter mark ARTICLES text

end Part000

namespace Part001

/-- The entry record of `src/unnamed/part_001` (line 26): no `english`
field. -/
structure Entry3 where
  article : String
  noun : String
  display : String
deriving DecidableEq

/-- `extractStructuredWords` pairing loop of `src/unnamed/part_001`
(lines 22–31). -/
def pairItems (arts : List String) : List String → List Entry3
  | [] => []
  | t :: rest =>
      let w := lowerStr t
      match rest with
      | [] => [⟨"", w, w⟩]
      | t2 :: rest2 =>
          if arts.contains w then
            let next := lowerStr t2
            ⟨w, next, w ++ " " ++ next⟩ :: pairItems arts rest2
          else
            ⟨"", w, w⟩ :: pairItems arts (t2 :: rest2)

/-- Dedup key of `src/unnamed/part_001` line 37. -/
def entryKey (e : Entry3) : String :=
  (if e.article = "" then "" else e.article ++ " ") ++ e.noun

/-- Dedup loop of `src/unnamed/part_001` lines 34–42. -/
def dedupAux : List Entry3 → List String → List Entry3
  | [], _ => []
  | e :: rest, seen =>
      if seen.contains (entryKey e) then dedupAux rest seen
      else e :: dedupAux rest (entryKey e :: seen)

/-- `extractStructuredWords` of `src/unnamed/part_001` (lines 18–44),
with the determiner set as a parameter. -/
def extractWith (letter mark : Char → Bool) (arts : List String)
    (text : String) : List Entry3 :=
  if text = "" then []
  else dedupAux (pairItems arts (tokensOf letter mark text)) []

/-- The `ARTICLES` set of `src/unnamed/part_001` (line 12): only the
three nominative definite articles. -/
def ARTICLES : List String := ["der", "die", "das"]

/-- `extractStructuredWords` of `src/unnamed/part_001` with its own
determiner set. -/
def extractStructuredWords (letter mark : Char → Bool) (text : String) :
    List Entry3 :=
  extractWith letter mark ARTICLES text

end Part001

theorem p000_entryKey_eq (e : Entry) : Part000.entryKey e = entryKey e := rfl

theorem p000_pairItems_eq (arts : List String) (ts : List String) :
    Part000.pairItems arts ts = pairItems arts ts := by
  induction ts using pairItems.induct arts with
  | case1 => rfl
  | case2 t => rfl
  | case3 t w t2 rest2 hw ih =>
      rw [pairItems, Part000.pairItems]
      simp only [hw, if_pos, ih]
  | case4 t w t2 rest2 hw ih =>
      rw [Bool.not_eq_true] at hw
      rw [pairItems, Part000.pairItems]
      simp only [hw, Bool.false_eq_true, if_false, ih]

theorem p000_dedupAux_eq (l : List Entry) (seen : List String) :
    Part000.dedupAux l seen = dedupAux l seen := by
  induction l generalizing seen with
  | nil => rfl
  | cons e rest ih =>
      rw [dedupAux, Part000.dedupAux, p000_entryKey_eq]
      by_cases h : seen.contains (entryKey e) = true
      · simp only [h, if_pos, ih]
      · rw [Bool.not_eq_true] at h
        simp only [h, Bool.false_eq_true, if_false, ih]

/-- Projection to the (article, noun) pair the claim compares. -/
def entryPair (e : Entry) : String × String := (e.article, e.noun)

/-- Projection to the (article, noun) pair for the third variant. -/
def entry3Pair (e : Part001.Entry3) : String × String := (e.article, e.noun)

theorem p001_pairItems_proj (arts : List String) (ts : List String) :
    (pairItems arts ts).map entryPair =
      (Part001.pairItems arts ts).map entry3Pair := by
  induction ts using pairItems.induct arts with
  | case1 => rfl
  | case2 t => rfl
  | case3 t w t2 rest2 hw ih =>
      rw [pairItems, Part001.pairItems]
      simp only [hw, if_pos, List.map_cons, ih]
      rfl
  | case4 t w t2 rest2 hw ih =>
      rw [Bool.not_eq_true] at hw
      rw [pairItems, Part001.pairItems]
      simp only [hw, Bool.false_eq_true, if_false, List.map_cons, ih]
      rfl

theorem key_of_pair_eq {e : Entry} {e3 : Part001.Entry3}
    (h : entryPair e = entry3Pair e3) :
    entryKey e = Part001.entryKey e3 := by
  rcases e with ⟨a, n, d, g⟩
  rcases e3 with ⟨a3, n3, d3⟩
  simp only [entryPair, entry3Pair, Prod.mk.injEq] at h
  rw [entryKey, Part001.entryKey]
  simp only [h.1, h.2]

theorem p001_dedupAux_proj (l : List Entry) (l3 : List Part001.Entry3)
    (seen : List String) (h : l.map entryPair = l3.map entry3Pair) :
    (dedupAux l seen).map entryPair =
      (Part001.dedupAux l3 seen).map entry3Pair := by
  induction l generalizing l3 seen with
  | nil =>
      cases l3 with
      | nil => rfl
      | cons e3 rest3 => simp at h
  | cons e rest ih =>
      cases l3 with
      | nil => simp at h
      | cons e3 rest3 =>
          simp only [List.map_cons, List.cons.injEq] at h
          have hk := key_of_pair_eq h.1
          rw [dedupAux, Part001.dedupAux, ← hk]
          by_cases hc : seen.contains (entryKey e) = true
          · simp only [hc, if_pos]
            exact ih rest3 seen h.2
          · rw [Bool.not_eq_true] at hc
            simp only [hc, Bool.false_eq_true, if_false, List.map_cons]
            rw [ih rest3 (entryKey e :: seen) h.2, h.1]

/-- **C9**: the three source variants implement the same extraction
algorithm parameterized only by the determiner set: instantiated with
the same determiner set `S`, the extraction of `src/app.js` and of
`src/unnamed/part_000` coincide, and both project to the same ordered
(article, noun) sequence as the extraction of `src/unnamed/part_001`;
moreover each variant's default instantiation is its own fixed set. -/
theorem claimC9_variants_agree (letter mark : Char → Bool) (S : List String)
    (text : String) :
    extractWith letter mark S text = Part000.extractWith letter mark S text ∧
      (extractWith letter mark S text).map entryPair =
        (Part001.extractWith letter mark S text).map entry3Pair ∧
      Part000.extractStructuredWords letter mark text =
        extractStructuredWords letter mark text := by
  have hmain : ∀ S2 : List String,
      extractWith letter mark S2 text = Part000.extractWith letter mark S2 text ∧
        (extractWith letter mark S2 text).map entryPair =
          (Part001.extractWith letter mark S2 text).map entry3Pair := by
    intro S2
    by_cases h : text = ""
    · subst h
      exact ⟨rfl, rfl⟩
    · constructor
      · rw [extractWith, Part000.extractWith, if_neg h, if_neg h,
          p000_pairItems_eq, p000_dedupAux_eq]
        rfl
      · rw [extractWith, Part001.extractWith, if_neg h, if_neg h]
        exact p001_dedupAux_proj _ _ []
          (p001_pairItems_proj S2 (tokensOf letter mark text))
  refine ⟨(hmain S).1, (hmain S).2, ?_⟩
  have h000 : Part000.ARTICLES = ARTICLES := rfl
  rw [Part000.extractStructuredWords, extractStructuredWords, h000]
  exact ((hmain ARTICLES).1).symm

end GermanExtractor
